import Mathlib

/-!
Shallow embedding of the shift-calendar scheduling engine of
`MachineScheduling.py` (the `CapacityPlanning.py` variant duplicates the same
engine verbatim; the only differences are in input construction, noted where
relevant).

Representation choices:
* A timestamp is a `Nat`, the number of minutes since an epoch placed at a
  Monday 00:00 (so `weekday t = t / 1440 % 7`, with Sunday = 6, matching
  Python's `datetime.weekday()`).
* A duration is a `Nat` number of minutes.  The Python code passes hours as
  numbers and all shift boundaries sit on half hours, so minute granularity
  represents every quantity the program manipulates exactly; comparisons such
  as `hours_left <= available_time` become comparisons of minute counts.
* Python's unbounded `while` loops become fuel-indexed recursions returning
  `none` when the fuel runs out; a raised `ValueError` becomes an
  `Except.error` carrying the exception's message string.
-/

namespace MachineSched

/-- `is_sunday(dt)`: Python's `dt.weekday() == 6` with the epoch on a Monday. -/
def isSunday (dt : Nat) : Bool := dt / 1440 % 7 == 6

/-- Midnight of the day containing `dt` (Python's `.replace(hour=0, minute=0)`). -/
def dayStart (dt : Nat) : Nat := dt / 1440 * 1440

/-- `next_working_day(dt)`: one day ahead, skipping Sundays.  The Python
`while` loop runs at most twice since Sundays are one day a week. -/
def nextWorkingDay (dt : Nat) : Nat :=
  if isSunday (dt + 1440) then dt + 2880 else dt + 1440

/-- `next_working_day(dt).replace(hour=0, minute=0)` as used by every caller. -/
def nextWorkingMidnight (dt : Nat) : Nat := dayStart (nextWorkingDay dt)

/-- `SHIFT_TIMES` in dict insertion order: shift id, start and end
minute-of-day.  Shift 1 = 08:00-16:30, shift 2 = 16:30-01:30 (overnight),
shift 3 = 01:30-08:00. -/
def shiftTable : List (Nat × Nat × Nat) := [(1, 480, 990), (2, 990, 90), (3, 90, 480)]

/-- `SHIFT_TIMES.items()` sorted by wall-clock start, as computed at the top of
`get_next_shift_start`. -/
def sortedShiftTable : List (Nat × Nat × Nat) := [(3, 90, 480), (1, 480, 990), (2, 990, 90)]

/-- `SHIFT_TIMES[sh]` (total with a dummy value; callers only pass ids that
came out of the table). -/
def shiftWindow : Nat → Nat × Nat
  | 1 => (480, 990)
  | 2 => (990, 90)
  | 3 => (90, 480)
  | _ => (0, 0)

/-- The scan of `get_shift_for_time` over the table in insertion order. -/
def getShiftAux : List (Nat × Nat × Nat) → Nat → Option Nat
  | [], _ => none
  | (sh, st, en) :: rest, tod =>
    if st < en then
      if st ≤ tod ∧ tod < en then some sh else getShiftAux rest tod
    else
      if st ≤ tod ∨ tod < en then some sh else getShiftAux rest tod

/-- `get_shift_for_time(time)` on a minute-of-day.  For a non-overnight row it
matches `start <= t < end`; for an overnight row it matches
`t >= start or t < end`. -/
def getShiftForTime (tod : Nat) : Option Nat := getShiftAux shiftTable tod

/-- The candidate start computed by `get_next_shift_start` for one shift row:
`datetime.combine(day, start_time)`, advanced one day when the row is
overnight, this is the day of `current_dt` itself, and the current wall-clock
time is already past the row's start. -/
def gnssCand (dt day st en : Nat) (isDay0 : Bool) : Nat :=
  if st > en ∧ isDay0 ∧ dt % 1440 > st then day * 1440 + st + 1440 else day * 1440 + st

/-- Inner loop of `get_next_shift_start`: scan the start-sorted shift rows for
one candidate day.  `day` is the day index, `isDay0` tells whether this is the
day of `dt` itself (Python's `days_ahead == 0`). -/
def gnssShifts (shifts : List Nat) (dt day : Nat) (isDay0 : Bool) :
    List (Nat × Nat × Nat) → Option Nat
  | [] => none
  | (sh, st, en) :: rest =>
    if shifts.contains sh then
      if gnssCand dt day st en isDay0 > dt then some (gnssCand dt day st en isDay0)
      else gnssShifts shifts dt day isDay0 rest
    else gnssShifts shifts dt day isDay0 rest

/-- Outer loop of `get_next_shift_start`: `for days_ahead in range(0, 8)`,
skipping Sunday dates.  `n` counts the remaining iterations, `k` is
`days_ahead`. -/
def gnssDays (shifts : List Nat) (dt : Nat) : Nat → Nat → Except String Nat
  | 0, _ => .error "No valid shift found in the next 7 days"
  | n + 1, k =>
    let day := dt / 1440 + k
    if day % 7 == 6 then gnssDays shifts dt n (k + 1)
    else
      match gnssShifts shifts dt day (k == 0) sortedShiftTable with
      | some r => .ok r
      | none => gnssDays shifts dt n (k + 1)

/-- `get_next_shift_start(machine_shifts, current_dt)`. -/
def getNextShiftStart (shifts : List Nat) (dt : Nat) : Except String Nat :=
  gnssDays shifts dt 8 0

/-- The shift-end instant computed inside `add_hours_across_shifts`:
`datetime.combine(dt.date(), SHIFT_TIMES[shift][1])`, plus one day when the
table row is overnight (`start > end`). -/
def shiftEndAbs (dt sh : Nat) : Nat :=
  let w := shiftWindow sh
  let e := dayStart dt + w.2
  if w.1 > w.2 then e + 1440 else e

/-- `add_hours_across_shifts(start_dt, hours, machine_shifts)`, fuel-indexed.
`left` is the remaining duration in minutes; `none` means the fuel ran out
before the Python loop finished. -/
def addHoursF (shifts : List Nat) : Nat → Nat → Nat → Option (Except String Nat)
  | 0, _, _ => none
  | fuel + 1, dt, left =>
    if left = 0 then some (.ok dt)
    else if isSunday dt then addHoursF shifts fuel (nextWorkingMidnight dt) left
    else
      match getShiftForTime (dt % 1440) with
      | none =>
        -- `None not in machine_shifts` always holds, so Python falls into the
        -- `get_next_shift_start` branch (the covering-shift lookup is total,
        -- so this arm is unreachable; it is kept for faithfulness).
        match getNextShiftStart shifts dt with
        | .error e => some (.error e)
        | .ok r => addHoursF shifts fuel r left
      | some sh =>
        if shifts.contains sh then
          let se := shiftEndAbs dt sh
          if se ≤ dt then
            -- `available_time <= 0`
            match getNextShiftStart shifts dt with
            | .error e => some (.error e)
            | .ok r => addHoursF shifts fuel r left
          else if left ≤ se - dt then some (.ok (dt + left))
          else addHoursF shifts fuel se (left - (se - dt))
        else
          match getNextShiftStart shifts dt with
          | .error e => some (.error e)
          | .ok r => addHoursF shifts fuel r left

/-- One entry of a `Machine.schedule`: `(start, end, product_name, operation)`. -/
structure Booking where
  start : Nat
  stop : Nat
  prod : String
  op : String
deriving Repr, DecidableEq

/-- `Machine` (named `Resource` in the `CapacityPlanning.py` variant): a name,
an operational-shift list and the occupancy timeline. -/
structure MachineE where
  name : String
  shifts : List Nat
  sched : List Booking
deriving Repr, DecidableEq

/-- `Machine.is_available(start, end)`: no existing booking overlaps. -/
def isAvailable (sched : List Booking) (s e : Nat) : Bool :=
  sched.all fun b => e ≤ b.start || b.stop ≤ s

/-- Ordering key used by Python's `schedule.sort()` on the booking tuples
(ties beyond `(start, end)` would compare the strings; the engine only reads
the list through start-ordered scans, so the string tie-break is immaterial
and omitted). -/
def bookingLE (a b : Booking) : Bool :=
  a.start < b.start || (a.start == b.start && a.stop ≤ b.stop)

/-- `add_operation`: append then re-sort.  On an already sorted list Python's
sort is an ordered insertion. -/
def insertBooking (x : Booking) : List Booking → List Booking
  | [] => [x]
  | b :: r => if bookingLE b x then b :: insertBooking x r else x :: b :: r

/-- The `latest_end` scan of `find_earliest_slot` over the sorted timeline:
stop at the first booking starting after the probe, extend the probe to the
end of every booking whose span contains it. -/
def advancePastBookings : List Booking → Nat → Nat
  | [], le => le
  | b :: r, le =>
    if le < b.start then le
    else if le < b.stop then advancePastBookings r b.stop
    else advancePastBookings r le

/-- The inner `while` of `find_earliest_slot`: push the candidate to the next
shift start until it sits inside an operational shift on a non-Sunday. -/
def snapToShift (shifts : List Nat) : Nat → Nat → Option (Except String Nat)
  | 0, _ => none
  | f + 1, cand =>
    let ok := (match getShiftForTime (cand % 1440) with
               | some sh => shifts.contains sh
               | none => false) && !(isSunday cand)
    if ok then some (.ok cand)
    else
      match getNextShiftStart shifts cand with
      | .error e => some (.error e)
      | .ok r => snapToShift shifts f r

/-- `Scheduler.find_earliest_slot(machine, ready_time, duration)`, fuel-indexed
on the outer `while True`.  `ahFuel` is the fuel handed to every
`add_hours_across_shifts` / inner-while evaluation. -/
def findSlotF (shifts : List Nat) (sched : List Booking) (dur ahFuel : Nat) :
    Nat → Nat → Option (Except String Nat)
  | 0, _ => none
  | f + 1, cand =>
    if isSunday cand then findSlotF shifts sched dur ahFuel f (nextWorkingMidnight cand)
    else
      let le := advancePastBookings sched cand
      match snapToShift shifts ahFuel le with
      | none => none
      | some (.error e) => some (.error e)
      | some (.ok c2) =>
        match addHoursF shifts ahFuel c2 dur with
        | none => none
        | some (.error e) => some (.error e)
        | some (.ok ce) =>
          if isAvailable sched c2 ce then some (.ok c2)
          else findSlotF shifts sched dur ahFuel f ce

/-- Input record for one machine definition. -/
structure MachInput where
  name : String
  shifts : List Nat
deriving Repr

/-- Input record for one project definition (`start_date`/`start_time` are
already merged into a day index from the epoch plus an hour-of-day, matching
`strptime` of `f"{start_date} {int(start_time):02d}:00"`); operation durations
are minutes. -/
structure ProjInput where
  productName : String
  priority : Nat
  startDay : Nat
  startHour : Nat
  opNames : List String
  machineSeq : List String
  opMinutes : List Nat
deriving Repr

/-- In-run project state (`Project`). -/
structure ProjectE where
  productName : String
  priority : Nat
  startTime : Nat
  operations : List (String × String × Nat)
  currentOp : Nat
  completionTime : Option Nat
deriving Repr, DecidableEq

/-- `zip` of the three parallel lists in `Project.__init__` (Python's `zip`
truncates to the shortest list). -/
def zip3 (a : List String) (b : List String) (c : List Nat) : List (String × String × Nat) :=
  (a.zip (b.zip c)).map fun x => (x.1, x.2.1, x.2.2)

/-- `Project.__init__`. -/
def mkProject (d : ProjInput) : ProjectE :=
  { productName := d.productName
    priority := d.priority
    startTime := d.startDay * 1440 + d.startHour * 60
    operations := zip3 d.opNames d.machineSeq d.opMinutes
    currentOp := 0
    completionTime := none }

/-- Dict insert for `Scheduler.__init__`'s machine map: a repeated name
overwrites the stored machine, a fresh one is appended (Python dicts keep
insertion order). -/
def insertMachine (ms : List MachineE) (m : MachineE) : List MachineE :=
  match ms with
  | [] => [m]
  | m0 :: r => if m0.name == m.name then m :: r else m0 :: insertMachine r m

/-- `{m['machine_name']: Machine(...) for m in machines}`. -/
def buildMachines (l : List MachInput) : List MachineE :=
  l.foldl (fun acc d => insertMachine acc ⟨d.name, d.shifts, []⟩) []

/-- Stable insertion for `sorted(projects, key=lambda x: x['priority'])`: a new
element goes after every element with priority less than or equal to its own. -/
def insertByPriority (p : ProjectE) : List ProjectE → List ProjectE
  | [] => [p]
  | q :: r => if q.priority ≤ p.priority then q :: insertByPriority p r else p :: q :: r

/-- Stable sort by ascending priority. -/
def sortProjects (l : List ProjectE) : List ProjectE :=
  l.foldl (fun acc p => insertByPriority p acc) []

/-- An entry of the event queue: `(ready_time, insertion_counter, project
index, operation index)`. -/
structure Event where
  time : Nat
  counter : Nat
  projIdx : Nat
  opIdx : Nat
deriving Repr, DecidableEq

/-- Heap order on events.  Counters are unique, so the Python tuple comparison
never reaches the project object. -/
def eventLE (a b : Event) : Bool :=
  a.time < b.time || (a.time == b.time && a.counter ≤ b.counter)

/-- The event queue is kept sorted by `(time, counter)`; pushing is an ordered
insertion and popping takes the head.  This realizes exactly the observable
behaviour of `heapq` (pop the minimum) since keys are totally ordered and
unique. -/
def pushEvent (x : Event) : List Event → List Event
  | [] => [x]
  | e :: r => if eventLE e x then e :: pushEvent x r else x :: e :: r

/-- Ghost record of one placement, in the order the simulation made them; the
Python program keeps this information inside the machine timelines (tagged
with product and operation names), the log merely tags it with the project and
operation indices so that per-project properties can be stated without name
disambiguation. -/
structure LogEntry where
  projIdx : Nat
  opIdx : Nat
  start : Nat
  stop : Nat
deriving Repr, DecidableEq

/-- Whole-scheduler state. -/
structure SchedState where
  machines : List MachineE
  projects : List ProjectE
  queue : List Event
  counter : Nat
  log : List LogEntry
deriving Repr, DecidableEq

def emptyState : SchedState := ⟨[], [], [], 0, []⟩

/-- Seeding loop of `Scheduler.run`: one event per project at its declared
start time, in sorted-project order, with fresh counters. -/
def seedEvents : Nat → Nat → List ProjectE → List Event → Nat × List Event
  | ctr, _, [], q => (ctr, q)
  | ctr, i, p :: r, q =>
    seedEvents (ctr + 1) (i + 1) r (pushEvent ⟨p.startTime, ctr + 1, i, p.currentOp⟩ q)

/-- `Scheduler.__init__` plus the seeding prefix of `run`. -/
def initState (ms : List MachInput) (ps : List ProjInput) : SchedState :=
  let projs := sortProjects (ps.map mkProject)
  let seeded := seedEvents 0 0 projs []
  { machines := buildMachines ms
    projects := projs
    queue := seeded.2
    counter := seeded.1
    log := [] }

def findMachineIdx (ms : List MachineE) (name : String) : Option Nat :=
  ms.findIdx? fun m => m.name == name

/-- Result of one iteration of the event loop. -/
inductive StepRes where
  | done
  | cont (st : SchedState)
  | halt (st : SchedState) (err : String)
  | stuck
deriving Repr

/-- One iteration of the `while self.event_queue` loop of `Scheduler.run`:
pop the minimum event, drop it if its operation index is out of range, resolve
the machine (a missing name is Python's `KeyError`, raised here, mid-run),
search the earliest feasible slot, book it, advance the project and enqueue
the follow-up event (or record the completion time). -/
def runStep (ahFuel : Nat) (st : SchedState) : StepRes :=
  match st.queue with
  | [] => .done
  | ev :: qrest =>
    let st1 : SchedState := { st with queue := qrest }
    match st.projects[ev.projIdx]? with
    | none => .cont st1
    | some proj =>
      if proj.operations.length ≤ ev.opIdx then .cont st1
      else
        match proj.operations[ev.opIdx]? with
        | none => .cont st1
        | some opr =>
          match findMachineIdx st.machines opr.2.1 with
          | none => .halt st1 ("KeyError: " ++ opr.2.1)
          | some mi =>
            match st.machines[mi]? with
            | none => .halt st1 "KeyError"
            | some mach =>
              match findSlotF mach.shifts mach.sched opr.2.2 ahFuel ahFuel ev.time with
              | none => .stuck
              | some (.error e) => .halt st1 e
              | some (.ok s) =>
                match addHoursF mach.shifts ahFuel s opr.2.2 with
                | none => .stuck
                | some (.error e) => .halt st1 e
                | some (.ok tEnd) =>
                  let mach2 : MachineE :=
                    { mach with sched := insertBooking ⟨s, tEnd, proj.productName, opr.1⟩ mach.sched }
                  let newCur := proj.currentOp + 1
                  let isDone := proj.operations.length ≤ newCur
                  let proj2 : ProjectE :=
                    { proj with
                      currentOp := newCur
                      completionTime := if isDone then some tEnd else proj.completionTime }
                  .cont
                    { machines := st.machines.set mi mach2
                      projects := st.projects.set ev.projIdx proj2
                      queue :=
                        if isDone then qrest
                        else pushEvent ⟨tEnd, st.counter + 1, ev.projIdx, newCur⟩ qrest
                      counter := if isDone then st.counter else st.counter + 1
                      log := st.log ++ [⟨ev.projIdx, ev.opIdx, s, tEnd⟩] }

/-- The event loop, fuel-indexed.  `some (st, none)` is a completed run,
`some (st, some e)` a run aborted by an exception `e`, `none` fuel exhaustion
of the embedding. -/
def runLoop (ahFuel : Nat) : Nat → SchedState → Option (SchedState × Option String)
  | 0, _ => none
  | fuel + 1, st =>
    match runStep ahFuel st with
    | .done => some (st, none)
    | .halt st1 e => some (st1, some e)
    | .stuck => none
    | .cont st1 => runLoop ahFuel fuel st1

/-- `Scheduler(machines, projects)` followed by `scheduler.run()`. -/
def runF (ahFuel loopFuel : Nat) (ms : List MachInput) (ps : List ProjInput) :
    Option (SchedState × Option String) :=
  runLoop ahFuel loopFuel (initState ms ps)

/-- Ascending insertion sort of shift ids (`sorted(self.operational_shifts)`). -/
def insertNat (x : Nat) : List Nat → List Nat
  | [] => [x]
  | y :: r => if y ≤ x then y :: insertNat x r else x :: y :: r

def sortNats (l : List Nat) : List Nat := l.foldl (fun acc x => insertNat x acc) []

/-- Inner scan of `Machine.get_first_shift_start` over one candidate day. -/
def fssShifts (day fs : Nat) : List Nat → Option Nat
  | [] => none
  | sh :: rest =>
    let c := day * 1440 + (shiftWindow sh).1
    if c ≤ fs then some c else fssShifts day fs rest

/-- Day loop of `get_first_shift_start`: up to 7 days back from the first
booking's start, skipping Sundays.  (With the `Nat` time axis the backward
date arithmetic stays on the axis for any timeline at least a week after the
epoch, which holds for every concrete input considered here.) -/
def fssDays (shifts : List Nat) (fs : Nat) : Nat → Nat → Option Nat
  | 0, _ => none
  | n + 1, db =>
    let day := fs / 1440 - db
    if day % 7 == 6 then fssDays shifts fs n (db + 1)
    else
      match fssShifts day fs (sortNats shifts) with
      | some r => some r
      | none => fssDays shifts fs n (db + 1)

/-- `Machine.get_first_shift_start`. -/
def firstShiftStartM (m : MachineE) : Option Nat :=
  match m.sched with
  | [] => none
  | b :: _ => fssDays m.shifts b.start 7 0

/-- Inner scan of `Machine.get_last_shift_end` over one candidate day
(shifts in descending order). -/
def lseShifts (day le : Nat) : List Nat → Option Nat
  | [] => none
  | sh :: rest =>
    let w := shiftWindow sh
    let e0 := day * 1440 + w.2
    let e := if w.1 > w.2 then e0 + 1440 else e0
    if le ≤ e then some e else lseShifts day le rest

/-- Day loop of `get_last_shift_end`: up to 7 days forward from the last
booking's end, skipping Sundays. -/
def lseDays (shifts : List Nat) (le : Nat) : Nat → Nat → Option Nat
  | 0, _ => none
  | n + 1, da =>
    let day := le / 1440 + da
    if day % 7 == 6 then lseDays shifts le n (da + 1)
    else
      match lseShifts day le (sortNats shifts).reverse with
      | some r => some r
      | none => lseDays shifts le n (da + 1)

/-- `Machine.get_last_shift_end` (`self.schedule[-1][1]`: the end of the last
booking in sort order). -/
def lastShiftEndM (m : MachineE) : Option Nat :=
  match m.sched.getLast? with
  | none => none
  | some b => lseDays m.shifts b.stop 7 0

/-- Per-day body of `calculate_idle_times`: for each operational shift of the
day at `dayCur`, the shift span minus every booking overlap, accumulated when
positive.  Exact integer minutes (`Int`, since a span can in principle go
negative before the `> 0` guard). -/
def idleShiftsSum (shifts : List Nat) (dayCur : Nat) (intervals : List (Nat × Nat)) : Int :=
  shifts.foldl
    (fun acc sh =>
      let w := shiftWindow sh
      let s0 : Int := (dayCur * 1440 + w.1 : Nat)
      let e1 : Int := (dayCur * 1440 + w.2 : Nat)
      let e0 : Int := if w.1 > w.2 then e1 + 1440 else e1
      let si :=
        intervals.foldl
          (fun r iv =>
            let os := max s0 (iv.1 : Int)
            let oe := min e0 (iv.2 : Int)
            if os < oe then r - (oe - os) else r)
          (e0 - s0)
      if si > 0 then acc + si else acc)
    0

/-- The `while current < last_shift_end` walk of `calculate_idle_times`,
fuel-indexed: skip Sundays to the next working midnight, otherwise add the
day's idle remainder and step one day. -/
def idleWalk (shifts : List Nat) (intervals : List (Nat × Nat)) (lastEnd : Nat) :
    Nat → Nat → Option Int
  | 0, _ => none
  | f + 1, cur =>
    if cur < lastEnd then
      if isSunday cur then idleWalk shifts intervals lastEnd f (nextWorkingMidnight cur)
      else
        match idleWalk shifts intervals lastEnd f (cur + 1440) with
        | none => none
        | some rest => some (idleShiftsSum shifts (cur / 1440) intervals + rest)
    else some 0

/-- `calculate_idle_times` for one machine, in exact minutes (Python reports
`round(idle_hours, 2)`; on minute-granular data the minute count determines
that figure exactly). -/
def calcIdleMachine (walkFuel : Nat) (m : MachineE) : Option Int :=
  match m.sched with
  | [] => some 0
  | _ =>
    let intervals := m.sched.map fun b => (b.start, b.stop)
    match firstShiftStartM m, lastShiftEndM m with
    | some fs, some le => idleWalk m.shifts intervals le walkFuel fs
    | _, _ => some 0

/-- Does the wall-clock window of shift `sh` cover minute-of-day `tod`
(same matching rule as `get_shift_for_time`, per shift)? -/
def shiftCoversB (sh tod : Nat) : Bool :=
  let w := shiftWindow sh
  if w.1 < w.2 then w.1 ≤ tod && tod < w.2 else w.1 ≤ tod || tod < w.2

/-- Is the instant `t` covered by some shift of the given operational set? -/
def instantCoveredB (shifts : List Nat) (t : Nat) : Bool :=
  shifts.any fun sh => shiftCoversB sh (t % 1440)

/-- Is every minute of `[s, e)` covered by some shift of the set?  (The shift
containment property of the spec, at the minute granularity of the
embedding.) -/
def intervalCoveredB (shifts : List Nat) (s e : Nat) : Bool :=
  (List.range (e - s)).all fun i => instantCoveredB shifts (s + i)

/-- Written to the spec's words for the idle-closure comparison: an instant is
an operational-shift instant when it is covered by some operational shift and
does not lie on the excluded day. -/
def specInstantOperational (shifts : List Nat) (t : Nat) : Bool :=
  !(isSunday t) && instantCoveredB shifts t

/-- Written to the spec's words: total operational-shift minutes contained in
the window `[lo, hi)`.  Every shift boundary, day boundary and scan-window
bound in this development lies on the half-hour lattice, so operational
coverage is constant on each half-hour slot of such a window and the covered
instants are counted 30 minutes per covered slot. -/
def specShiftMinutesInWindow (shifts : List Nat) (lo hi : Nat) : Nat :=
  30 * ((List.range ((hi - lo) / 30)).filter fun i =>
    specInstantOperational shifts (lo + 30 * i)).length

/-- Booked minutes of a timeline lying within the window `[lo, hi)`. -/
def bookedMinutesInWindow (sched : List Booking) (lo hi : Nat) : Nat :=
  sched.foldl (fun acc b => acc + (min b.stop hi - max b.start lo)) 0

/-- Claim predicate: on every machine the bookings are pairwise disjoint. -/
def disjB (a b : Booking) : Bool := a.stop ≤ b.start || b.stop ≤ a.start

def pairwiseDisjB : List Booking → Bool
  | [] => true
  | b :: r => (r.all fun x => disjB b x) && pairwiseDisjB r

def allDisjointB (st : SchedState) : Bool :=
  st.machines.all fun m => pairwiseDisjB m.sched

/-- Claim predicate: no booked start on Sunday, and a booked end on Sunday
only in the 00:00-01:30 spill-over of Saturday's overnight shift. -/
def sundaySafeB (st : SchedState) : Bool :=
  st.machines.all fun m =>
    m.sched.all fun b => !(isSunday b.start) && (!(isSunday b.stop) || b.stop % 1440 ≤ 90)

/-- Claim predicate: along each project's placements (in operation order),
every operation starts no earlier than its predecessor ended. -/
def chainLE : List LogEntry → Bool
  | [] => true
  | [_] => true
  | a :: b :: r => (a.stop ≤ b.start) && chainLE (b :: r)

def logFor (st : SchedState) (p : Nat) : List LogEntry :=
  st.log.filter fun en => en.projIdx == p

def logChainB (st : SchedState) : Bool :=
  (List.range st.projects.length).all fun p => chainLE (logFor st p)

/-- End of the last placement of project `p` (0 when none yet). -/
def lastStop (log : List LogEntry) (p : Nat) : Nat :=
  ((log.filter fun en => en.projIdx == p).map fun en => en.stop).getLastD 0

/-- Auxiliary invariant: every pending event is no earlier than its project's
last placed end. -/
def queueLinkB (st : SchedState) : Bool :=
  st.queue.all fun ev => lastStop st.log ev.projIdx ≤ ev.time

/-- Auxiliary invariant: at most one pending event per project. -/
def queueNodupB : List Event → Bool
  | [] => true
  | e :: r => (r.all fun x => x.projIdx != e.projIdx) && queueNodupB r

/-- The inductive invariant of the event loop. -/
def invB (st : SchedState) : Bool :=
  allDisjointB st && sundaySafeB st && logChainB st && queueLinkB st && queueNodupB st.queue

def countBookings (st : SchedState) : Nat :=
  st.machines.foldl (fun a m => a + m.sched.length) 0

/-! ### Calendar arithmetic lemmas -/

theorem isSunday_iff (dt : Nat) : isSunday dt = true ↔ dt / 1440 % 7 = 6 := by
  simp [isSunday]

theorem isSunday_false_iff (dt : Nat) : isSunday dt = false ↔ ¬ dt / 1440 % 7 = 6 := by
  simp [isSunday]

theorem dayStart_le (dt : Nat) : dayStart dt ≤ dt := by
  unfold dayStart; omega

theorem lt_dayStart_add (dt : Nat) : dt < dayStart dt + 1440 := by
  unfold dayStart; omega

theorem dayStart_div (dt : Nat) : dayStart dt / 1440 = dt / 1440 := by
  unfold dayStart; omega

theorem isSunday_dayStart (dt : Nat) : isSunday (dayStart dt) = isSunday dt := by
  simp [isSunday, dayStart_div]

theorem dayStart_add_mod (dt : Nat) : dayStart dt + dt % 1440 = dt := by
  unfold dayStart; omega

theorem nwm_gt (dt : Nat) : dt < nextWorkingMidnight dt := by
  unfold nextWorkingMidnight nextWorkingDay
  by_cases h : isSunday (dt + 1440) = true
  · simp only [h, if_true]; unfold dayStart; omega
  · simp only [Bool.not_eq_true] at h; simp only [h, Bool.false_eq_true, if_false]
    unfold dayStart; omega

theorem nwm_not_sunday (dt : Nat) : isSunday (nextWorkingMidnight dt) = false := by
  unfold nextWorkingMidnight nextWorkingDay
  by_cases h : isSunday (dt + 1440) = true
  · simp only [h, if_true, isSunday_dayStart]
    rw [isSunday_iff] at h
    rw [isSunday_false_iff]
    omega
  · simp only [Bool.not_eq_true] at h
    simp only [h, Bool.false_eq_true, if_false, isSunday_dayStart]

/-! ### Characterization of `get_shift_for_time` -/

/-- Normal form of the table scan: nested interval tests in insertion order. -/
theorem gsft_eq (tod : Nat) :
    getShiftForTime tod =
      if 480 ≤ tod ∧ tod < 990 then some 1
      else if 990 ≤ tod ∨ tod < 90 then some 2
      else if 90 ≤ tod ∧ tod < 480 then some 3
      else none := by
  simp [getShiftForTime, getShiftAux, shiftTable]

theorem gsft_one (tod : Nat) (h : tod < 1440) :
    getShiftForTime tod = some 1 ↔ 480 ≤ tod ∧ tod < 990 := by
  rw [gsft_eq]; split_ifs with h1 h2 h3
  all_goals simp
  all_goals omega

theorem gsft_two (tod : Nat) (h : tod < 1440) :
    getShiftForTime tod = some 2 ↔ 990 ≤ tod ∨ tod < 90 := by
  rw [gsft_eq]; split_ifs with h1 h2 h3
  all_goals simp
  all_goals omega

theorem gsft_three (tod : Nat) (h : tod < 1440) :
    getShiftForTime tod = some 3 ↔ 90 ≤ tod ∧ tod < 480 := by
  rw [gsft_eq]; split_ifs with h1 h2 h3
  all_goals simp
  all_goals omega

theorem gsft_cases (tod : Nat) (h : tod < 1440) :
    getShiftForTime tod = some 1 ∨ getShiftForTime tod = some 2 ∨ getShiftForTime tod = some 3 := by
  rw [gsft_eq]; split_ifs with h1 h2 h3
  all_goals simp
  all_goals omega

theorem gsft_total (tod : Nat) (h : tod < 1440) : (getShiftForTime tod).isSome = true := by
  rcases gsft_cases tod h with h1 | h1 | h1 <;> rw [h1] <;> rfl

theorem gsft_starts :
    getShiftForTime 90 = some 3 ∧ getShiftForTime 480 = some 1 ∧ getShiftForTime 990 = some 2 := by
  refine ⟨?_, ?_, ?_⟩ <;> rw [gsft_eq]
  all_goals norm_num

theorem tod_lt (dt : Nat) : dt % 1440 < 1440 := Nat.mod_lt _ (by decide)

theorem shiftEndAbs_one (dt : Nat) : shiftEndAbs dt 1 = dayStart dt + 990 := by
  simp [shiftEndAbs, shiftWindow]

theorem shiftEndAbs_two (dt : Nat) : shiftEndAbs dt 2 = dayStart dt + 1530 := by
  simp [shiftEndAbs, shiftWindow]

theorem shiftEndAbs_three (dt : Nat) : shiftEndAbs dt 3 = dayStart dt + 480 := by
  simp [shiftEndAbs, shiftWindow]

/-- The shift end computed for the covering shift lies strictly ahead of the
current instant (so `available_time <= 0` never holds). -/
theorem shiftEndAbs_gt (dt : Nat) (sh : Nat)
    (h : getShiftForTime (dt % 1440) = some sh) : dt < shiftEndAbs dt sh := by
  have htod := tod_lt dt
  have hsplit := dayStart_add_mod dt
  rcases gsft_cases (dt % 1440) htod with h1 | h2 | h3
  · rw [h1] at h; cases h
    rw [gsft_one _ htod] at h1
    rw [shiftEndAbs_one]; omega
  · rw [h2] at h; cases h
    rw [shiftEndAbs_two]; omega
  · rw [h3] at h; cases h
    rw [gsft_three _ htod] at h3
    rw [shiftEndAbs_three]; omega

/-- The shift end for the covering shift: bounds needed for the
Sunday-spill analysis.  Either it stays inside the current day (shifts 1 and
3), or the covering shift is the overnight shift 2 and the end sits at
minute 90 of the next day. -/
theorem shiftEndAbs_cases (dt : Nat) (sh : Nat)
    (h : getShiftForTime (dt % 1440) = some sh) :
    shiftEndAbs dt sh ≤ dayStart dt + 990 ∨
      (sh = 2 ∧ shiftEndAbs dt sh = dayStart dt + 1530) := by
  have htod := tod_lt dt
  rcases gsft_cases (dt % 1440) htod with h1 | h2 | h3
  · rw [h1] at h; cases h
    left; rw [shiftEndAbs_one]
  · rw [h2] at h; cases h
    right; exact ⟨rfl, shiftEndAbs_two dt⟩
  · rw [h3] at h; cases h
    left; rw [shiftEndAbs_three]; omega

/-! ### `get_next_shift_start` lemmas -/

/-- The three facts about the sorted shift table the scan lemmas need: starts
fit in a day, the only overnight row is shift 2 starting at 16:30, and each
row's start instant is covered by that row's shift. -/
theorem sortedTable_facts : ∀ x ∈ sortedShiftTable,
    x.2.1 < 1440 ∧ (x.2.1 > x.2.2 → x.1 = 2 ∧ x.2.1 = 990) ∧
      getShiftForTime x.2.1 = some x.1 := by decide

theorem gnssShifts_gt (shifts : List Nat) (dt day : Nat) (d0 : Bool) :
    ∀ l c, gnssShifts shifts dt day d0 l = some c → dt < c := by
  intro l
  induction l with
  | nil => intro c h; simp [gnssShifts] at h
  | cons x rest ih =>
    intro c h
    obtain ⟨sh, st, en⟩ := x
    simp only [gnssShifts] at h
    split at h
    · split at h
      · rename_i hgt; cases h; exact hgt
      · exact ih c h
    · exact ih c h

theorem gnssShifts_sunday (shifts : List Nat) (dt day : Nat) (d0 : Bool)
    (hday : ¬ day % 7 = 6) :
    ∀ l, (∀ sh st en, (sh, st, en) ∈ l → st < 1440 ∧ (st > en → sh = 2 ∧ st = 990)) →
      ∀ c, gnssShifts shifts dt day d0 l = some c → isSunday c = true →
        d0 = true ∧ 990 < dt % 1440 ∧ shifts.contains 2 = true ∧ c / 1440 = day + 1 := by
  intro l
  induction l with
  | nil => intro _ c h; simp [gnssShifts] at h
  | cons x rest ih =>
    intro htab c h hsun
    obtain ⟨sh, st, en⟩ := x
    obtain ⟨hst, hover⟩ := htab sh st en (List.mem_cons_self _ _)
    have htabr := fun a b d hy => htab a b d (List.mem_cons_of_mem _ hy)
    simp only [gnssShifts] at h
    split at h
    · rename_i hcont
      split at h
      · cases h
        by_cases hadj : st > en ∧ d0 = true ∧ dt % 1440 > st
        · obtain ⟨ho, hd0, hpast⟩ := hadj
          obtain ⟨hsh2, hst990⟩ := hover ho
          subst hsh2
          unfold gnssCand
          unfold gnssCand at hsun
          rw [if_pos ⟨ho, hd0, hpast⟩] at hsun ⊢
          exact ⟨hd0, by omega, hcont, by omega⟩
        · exfalso
          unfold gnssCand at hsun
          rw [if_neg hadj] at hsun
          rw [isSunday_iff] at hsun
          have hdd : (day * 1440 + st) / 1440 = day := by omega
          rw [hdd] at hsun
          exact hday hsun
      · exact ih htabr c h hsun
    · exact ih htabr c h hsun

theorem gnssShifts_covering (shifts : List Nat) (dt day : Nat) (d0 : Bool) :
    ∀ l, (∀ sh st en, (sh, st, en) ∈ l → st < 1440 ∧ getShiftForTime st = some sh) →
      ∀ c, gnssShifts shifts dt day d0 l = some c →
        ∃ sh, getShiftForTime (c % 1440) = some sh ∧ shifts.contains sh = true := by
  intro l
  induction l with
  | nil => intro _ c h; simp [gnssShifts] at h
  | cons x rest ih =>
    intro htab c h
    obtain ⟨sh, st, en⟩ := x
    obtain ⟨hst, hcov⟩ := htab sh st en (List.mem_cons_self _ _)
    have htabr := fun a b d hy => htab a b d (List.mem_cons_of_mem _ hy)
    simp only [gnssShifts] at h
    split at h
    · rename_i hcont
      split at h
      · cases h
        refine ⟨sh, ?_, hcont⟩
        have hmod : gnssCand dt day st en d0 % 1440 = st := by
          unfold gnssCand; split <;> omega
        rw [hmod]
        exact hcov
      · exact ih htabr c h
    · exact ih htabr c h

theorem gnssShifts_none (shifts : List Nat) (dt day : Nat) (d0 : Bool) :
    ∀ l, (∀ sh st en, (sh, st, en) ∈ l → shifts.contains sh = false) →
      gnssShifts shifts dt day d0 l = none := by
  intro l
  induction l with
  | nil => intro _; rfl
  | cons x rest ih =>
    intro htab
    obtain ⟨sh, st, en⟩ := x
    have h0 := htab sh st en (List.mem_cons_self _ _)
    simp only [gnssShifts, h0, Bool.false_eq_true, if_false]
    exact ih fun a b d hy => htab a b d (List.mem_cons_of_mem _ hy)

theorem gnssDays_gt (shifts : List Nat) (dt : Nat) :
    ∀ n k c, gnssDays shifts dt n k = .ok c → dt < c := by
  intro n
  induction n with
  | zero => intro k c h; simp [gnssDays] at h
  | succ n ih =>
    intro k c h
    simp only [gnssDays] at h
    split at h
    · exact ih _ c h
    · split at h
      · rename_i r hr; cases h; exact gnssShifts_gt _ _ _ _ _ _ hr
      · exact ih _ c h

theorem gnssDays_sunday (shifts : List Nat) (dt : Nat) :
    ∀ n k c, gnssDays shifts dt n k = .ok c → isSunday c = true →
      990 < dt % 1440 ∧ shifts.contains 2 = true ∧ dt / 1440 % 7 = 5 := by
  intro n
  induction n with
  | zero => intro k c h; simp [gnssDays] at h
  | succ n ih =>
    intro k c h hsun
    simp only [gnssDays] at h
    split at h
    · exact ih _ c h hsun
    · rename_i hday
      split at h
      · rename_i r hr
        cases h
        have hday2 : ¬ (dt / 1440 + k) % 7 = 6 := by simpa using hday
        obtain ⟨hd0, hgt, hcont, hdiv⟩ :=
          gnssShifts_sunday shifts dt (dt / 1440 + k) (k == 0) hday2 sortedShiftTable
            (fun a b d hx => ⟨(sortedTable_facts (a, b, d) hx).1,
              (sortedTable_facts (a, b, d) hx).2.1⟩) c hr hsun
        have hk : k = 0 := by simpa using hd0
        subst hk
        rw [isSunday_iff] at hsun
        refine ⟨hgt, hcont, ?_⟩
        omega
      · exact ih _ c h hsun

theorem gnssDays_covering (shifts : List Nat) (dt : Nat) :
    ∀ n k c, gnssDays shifts dt n k = .ok c →
      ∃ sh, getShiftForTime (c % 1440) = some sh ∧ shifts.contains sh = true := by
  intro n
  induction n with
  | zero => intro k c h; simp [gnssDays] at h
  | succ n ih =>
    intro k c h
    simp only [gnssDays] at h
    split at h
    · exact ih _ c h
    · split at h
      · rename_i r hr
        cases h
        exact gnssShifts_covering shifts dt _ _ sortedShiftTable
          (fun a b d hx => ⟨(sortedTable_facts (a, b, d) hx).1,
            (sortedTable_facts (a, b, d) hx).2.2⟩) c hr
      · exact ih _ c h

theorem gnssDays_error (shifts : List Nat) (dt : Nat)
    (h1 : shifts.contains 1 = false) (h2 : shifts.contains 2 = false)
    (h3 : shifts.contains 3 = false) :
    ∀ n k, gnssDays shifts dt n k = .error "No valid shift found in the next 7 days" := by
  have hnone : ∀ day d0, gnssShifts shifts dt day d0 sortedShiftTable = none := by
    intro day d0
    apply gnssShifts_none
    intro a b d hx
    fin_cases hx <;> assumption
  intro n
  induction n with
  | zero => intro k; rfl
  | succ n ih =>
    intro k
    simp only [gnssDays]
    split
    · exact ih _
    · rw [hnone]
      exact ih _

theorem gnss_gt (shifts : List Nat) (dt c : Nat)
    (h : getNextShiftStart shifts dt = .ok c) : dt < c :=
  gnssDays_gt shifts dt 8 0 c h

theorem gnss_sunday (shifts : List Nat) (dt c : Nat)
    (h : getNextShiftStart shifts dt = .ok c) (hsun : isSunday c = true) :
    990 < dt % 1440 ∧ shifts.contains 2 = true ∧ dt / 1440 % 7 = 5 :=
  gnssDays_sunday shifts dt 8 0 c h hsun

theorem gnss_covering (shifts : List Nat) (dt c : Nat)
    (h : getNextShiftStart shifts dt = .ok c) :
    ∃ sh, getShiftForTime (c % 1440) = some sh ∧ shifts.contains sh = true :=
  gnssDays_covering shifts dt 8 0 c h

theorem gnss_error (shifts : List Nat) (dt : Nat)
    (h1 : shifts.contains 1 = false) (h2 : shifts.contains 2 = false)
    (h3 : shifts.contains 3 = false) :
    getNextShiftStart shifts dt = .error "No valid shift found in the next 7 days" :=
  gnssDays_error shifts dt h1 h2 h3 8 0

/-- A timestamp bounded by minute 90 of the day after a non-Sunday `dt` and
lying strictly after `dayStart dt` is Sunday-safe: if it falls on a Sunday its
minute-of-day is at most 90. -/
theorem sunday_tail_bound (dt r : Nat) (hs : isSunday dt = false)
    (hlo : dayStart dt ≤ r) (hhi : r ≤ dayStart dt + 1530) :
    isSunday r = true → r % 1440 ≤ 90 := by
  intro hr
  rw [isSunday_iff] at hr
  rw [isSunday_false_iff] at hs
  unfold dayStart at hlo hhi
  -- r is in the current (non-Sunday) day or in the first 90 minutes of the next
  have hdays : r / 1440 = dt / 1440 ∨ (r / 1440 = dt / 1440 + 1 ∧ r % 1440 ≤ 90) := by
    omega
  rcases hdays with h | h
  · exfalso; rw [h] at hr; exact hs hr
  · exact h.2

/-! ### `add_hours_across_shifts` lemmas -/

theorem addHoursF_ge (shifts : List Nat) :
    ∀ fuel dt left r, addHoursF shifts fuel dt left = some (.ok r) → dt ≤ r := by
  intro fuel
  induction fuel with
  | zero => intro dt left r h; simp [addHoursF] at h
  | succ f ih =>
    intro dt left r h
    simp only [addHoursF] at h
    split at h
    · simp only [Option.some.injEq, Except.ok.injEq] at h
      omega
    · split at h
      · have h1 := ih _ _ _ h
        have h2 := nwm_gt dt
        omega
      · split at h
        · -- covering shift lookup returned none: jump to the next shift start
          split at h
          · simp at h
          · rename_i r2 hr2
            have h1 := ih _ _ _ h
            have h2 := gnss_gt shifts dt r2 hr2
            omega
        · rename_i sh hcov
          split at h
          · split at h
            · split at h
              · simp at h
              · rename_i r2 hr2
                have h1 := ih _ _ _ h
                have h2 := gnss_gt shifts dt r2 hr2
                omega
            · split at h
              · simp only [Option.some.injEq, Except.ok.injEq] at h
                omega
              · rename_i hnle hnfit
                have h1 := ih _ _ _ h
                have h2 := shiftEndAbs_gt dt sh hcov
                omega
          · split at h
            · simp at h
            · rename_i r2 hr2
              have h1 := ih _ _ _ h
              have h2 := gnss_gt shifts dt r2 hr2
              omega

/-- For any result delivered by the no-shift jump inside
`add_hours_across_shifts`, the jump target is not a Sunday: the overnight
day-zero adjustment of `get_next_shift_start` can only fire when the current
instant is past 16:30, but then the covering shift is shift 2, so the two
branches calling the jump (covering shift not operational, or no available
time in it) exclude the adjustment. -/
theorem addHours_gnss_not_sunday (shifts : List Nat) (dt r : Nat) (sh : Nat)
    (hcov : getShiftForTime (dt % 1440) = some sh)
    (hexcl : shifts.contains sh = false ∨ shiftEndAbs dt sh ≤ dt)
    (hg : getNextShiftStart shifts dt = .ok r) : isSunday r = false := by
  by_contra hb
  simp only [Bool.not_eq_false] at hb
  obtain ⟨hgt, hc2, _⟩ := gnss_sunday shifts dt r hg hb
  have h2 : getShiftForTime (dt % 1440) = some 2 := by
    rw [gsft_two _ (tod_lt dt)]
    left; omega
  rw [h2] at hcov
  cases hcov
  rcases hexcl with he | he
  · rw [hc2] at he; cases he
  · have := shiftEndAbs_gt dt 2 h2
    omega

theorem addHoursF_sunday_safe (shifts : List Nat) :
    ∀ fuel dt left r, (isSunday dt = true → dt % 1440 ≤ 90) →
      addHoursF shifts fuel dt left = some (.ok r) →
      isSunday r = true → r % 1440 ≤ 90 := by
  intro fuel
  induction fuel with
  | zero => intro dt left r _ h; simp [addHoursF] at h
  | succ f ih =>
    intro dt left r hdt h
    simp only [addHoursF] at h
    split at h
    · simp only [Option.some.injEq, Except.ok.injEq] at h
      subst h; exact hdt
    · rename_i hnz
      split at h
      · refine ih _ _ _ ?_ h
        intro hbad
        rw [nwm_not_sunday dt] at hbad
        cases hbad
      · rename_i hnsP
        have hns : isSunday dt = false := by
          simp only [Bool.not_eq_true] at hnsP; exact hnsP
        split at h
        · rename_i hnone
          have := gsft_total (dt % 1440) (tod_lt dt)
          rw [hnone] at this
          cases this
        · rename_i sh hcov
          split at h
          · rename_i hin
            split at h
            · rename_i hle
              exfalso
              have := shiftEndAbs_gt dt sh hcov
              omega
            · rename_i hnle
              split at h
              · rename_i hfit
                simp only [Option.some.injEq, Except.ok.injEq] at h
                subst h
                have hbound : shiftEndAbs dt sh ≤ dayStart dt + 1530 := by
                  rcases shiftEndAbs_cases dt sh hcov with hc | hc
                  · omega
                  · omega
                have hlo := dayStart_le dt
                exact sunday_tail_bound dt (dt + left) hns (by omega) (by omega)
              · rename_i hnfit
                refine ih _ _ _ ?_ h
                intro hbad
                have hbound : shiftEndAbs dt sh ≤ dayStart dt + 1530 := by
                  rcases shiftEndAbs_cases dt sh hcov with hc | hc
                  · omega
                  · omega
                have hgt := shiftEndAbs_gt dt sh hcov
                have hlo := dayStart_le dt
                exact sunday_tail_bound dt (shiftEndAbs dt sh) hns (by omega) (by omega) hbad
          · rename_i hninP
            split at h
            · simp at h
            · rename_i r2 hr2
              refine ih _ _ _ ?_ h
              intro hbad
              have hnin : shifts.contains sh = false := by
                simp only [Bool.not_eq_true] at hninP; exact hninP
              rw [addHours_gnss_not_sunday shifts dt r2 sh hcov (Or.inl hnin) hr2] at hbad
              cases hbad

/-! ### Termination of `add_hours_across_shifts` -/

/-- Zero remaining duration returns at once. -/
theorem addHoursF_zero (shifts : List Nat) (dt : Nat) :
    addHoursF shifts 1 dt 0 = some (.ok dt) := by
  simp [addHoursF]

/-- Consuming step: from a non-Sunday instant whose covering shift is
operational, the loop either finishes inside the current shift block or
strictly reduces the remaining duration, so induction on the duration
applies. -/
theorem addHours_term_ready (shifts : List Nat) (left : Nat)
    (IH : ∀ l2, l2 < left → ∀ dt2, ∃ f, (addHoursF shifts f dt2 l2).isSome = true)
    (dt : Nat) (hns : isSunday dt = false) (sh : Nat)
    (hcov : getShiftForTime (dt % 1440) = some sh) (hin : shifts.contains sh = true) :
    ∃ f, (addHoursF shifts f dt left).isSome = true := by
  by_cases h0 : left = 0
  · subst h0; exact ⟨1, by rw [addHoursF_zero]; rfl⟩
  have hse := shiftEndAbs_gt dt sh hcov
  by_cases hfit : left ≤ shiftEndAbs dt sh - dt
  · refine ⟨1, ?_⟩
    simp only [addHoursF, if_neg h0, hns, Bool.false_eq_true, if_false, hcov, hin, if_true,
      if_neg (by omega : ¬ shiftEndAbs dt sh ≤ dt), if_pos hfit]
    rfl
  · obtain ⟨f, hf⟩ := IH (left - (shiftEndAbs dt sh - dt)) (by omega) (shiftEndAbs dt sh)
    refine ⟨f + 1, ?_⟩
    simp only [addHoursF, if_neg h0, hns, Bool.false_eq_true, if_false, hcov, hin, if_true,
      if_neg (by omega : ¬ shiftEndAbs dt sh ≤ dt), if_neg hfit]
    exact hf

/-- Progress from any non-Sunday instant: either consume at once, or surface
the no-shift error, or make one `get_next_shift_start` jump to an instant
whose covering shift is operational and consume there. -/
theorem addHours_term_notsunday (shifts : List Nat) (left : Nat)
    (IH : ∀ l2, l2 < left → ∀ dt2, ∃ f, (addHoursF shifts f dt2 l2).isSome = true)
    (dt : Nat) (hns : isSunday dt = false) :
    ∃ f, (addHoursF shifts f dt left).isSome = true := by
  by_cases h0 : left = 0
  · subst h0; exact ⟨1, by rw [addHoursF_zero]; rfl⟩
  rcases hcovE : getShiftForTime (dt % 1440) with _ | sh
  · have := gsft_total (dt % 1440) (tod_lt dt)
    rw [hcovE] at this
    cases this
  by_cases hin : shifts.contains sh = true
  · exact addHours_term_ready shifts left IH dt hns sh hcovE hin
  · have hinF : shifts.contains sh = false := by
      simp only [Bool.not_eq_true] at hin; exact hin
    rcases hg : getNextShiftStart shifts dt with e | r
    · refine ⟨1, ?_⟩
      simp only [addHoursF, if_neg h0, hns, Bool.false_eq_true, if_false, hcovE, hinF, hg]
      rfl
    · have hrns : isSunday r = false :=
        addHours_gnss_not_sunday shifts dt r sh hcovE (Or.inl hinF) hg
      obtain ⟨sh2, hcov2, hin2⟩ := gnss_covering shifts dt r hg
      obtain ⟨f, hf⟩ := addHours_term_ready shifts left IH r hrns sh2 hcov2 hin2
      refine ⟨f + 1, ?_⟩
      simp only [addHoursF, if_neg h0, hns, Bool.false_eq_true, if_false, hcovE, hinF, hg]
      exact hf

/-- Full termination of `add_hours_across_shifts`: for some fuel the loop
delivers a value (either the advanced timestamp or the no-shift error). -/
theorem addHours_terminates (shifts : List Nat) :
    ∀ left dt, ∃ f, (addHoursF shifts f dt left).isSome = true := by
  intro left
  induction left using Nat.strong_induction_on with
  | _ left IH =>
    intro dt
    by_cases hs : isSunday dt = true
    · by_cases h0 : left = 0
      · subst h0; exact ⟨1, by rw [addHoursF_zero]; rfl⟩
      · obtain ⟨f, hf⟩ :=
          addHours_term_notsunday shifts left IH (nextWorkingMidnight dt) (nwm_not_sunday dt)
        refine ⟨f + 1, ?_⟩
        simp only [addHoursF, if_neg h0, hs, if_true]
        exact hf
    · have hns : isSunday dt = false := by
        simp only [Bool.not_eq_true] at hs; exact hs
      exact addHours_term_notsunday shifts left IH dt hns

/-! ### `find_earliest_slot` lemmas -/

theorem advancePastBookings_ge : ∀ (l : List Booking) (c : Nat), c ≤ advancePastBookings l c := by
  intro l
  induction l with
  | nil => intro c; exact Nat.le_refl c
  | cons b r ih =>
    intro c
    simp only [advancePastBookings]
    split
    · exact Nat.le_refl c
    · split
      · rename_i h1 h2
        have := ih b.stop
        omega
      · exact ih c

theorem snapToShift_spec (shifts : List Nat) :
    ∀ f cand c2, snapToShift shifts f cand = some (.ok c2) →
      cand ≤ c2 ∧ isSunday c2 = false ∧
        ∃ sh, getShiftForTime (c2 % 1440) = some sh ∧ shifts.contains sh = true := by
  intro f
  induction f with
  | zero => intro cand c2 h; simp [snapToShift] at h
  | succ f ih =>
    intro cand c2 h
    simp only [snapToShift] at h
    split at h
    · rename_i hok
      simp only [Option.some.injEq, Except.ok.injEq] at h
      subst h
      rw [Bool.and_eq_true] at hok
      obtain ⟨h1, h2⟩ := hok
      refine ⟨Nat.le_refl _, by simpa using h2, ?_⟩
      rcases hcov : getShiftForTime (cand % 1440) with _ | sh
      · rw [hcov] at h1; cases h1
      · rw [hcov] at h1; exact ⟨sh, rfl, h1⟩
    · split at h
      · simp at h
      · rename_i r hr
        obtain ⟨hle, hns, hcov⟩ := ih r c2 h
        have := gnss_gt shifts cand r hr
        exact ⟨by omega, hns, hcov⟩

/-- Everything `Scheduler.run` needs to know about a slot the search returns:
it is no earlier than the ready time, it is not on a Sunday, and re-running
`add_hours_across_shifts` from it gives the end the search already validated
as available. -/
theorem findSlotF_spec (shifts : List Nat) (sched : List Booking) (dur ahFuel : Nat) :
    ∀ f cand s, findSlotF shifts sched dur ahFuel f cand = some (.ok s) →
      cand ≤ s ∧ isSunday s = false ∧
        ∃ e, addHoursF shifts ahFuel s dur = some (.ok e) ∧ isAvailable sched s e = true := by
  intro f
  induction f with
  | zero => intro cand s h; simp [findSlotF] at h
  | succ f ih =>
    intro cand s h
    simp only [findSlotF] at h
    split at h
    · obtain ⟨hle, hns, hrest⟩ := ih _ _ h
      have := nwm_gt cand
      exact ⟨by omega, hns, hrest⟩
    · split at h
      · simp at h
      · simp at h
      · rename_i c2 hsnap
        obtain ⟨hle1, hns1, _⟩ := snapToShift_spec shifts ahFuel _ c2 hsnap
        have hle0 := advancePastBookings_ge sched cand
        split at h
        · simp at h
        · simp at h
        · rename_i ce hadd
          split at h
          · rename_i havail
            simp only [Option.some.injEq, Except.ok.injEq] at h
            subst h
            exact ⟨by omega, hns1, ce, hadd, havail⟩
          · obtain ⟨hle2, hns2, hrest⟩ := ih _ _ h
            have := addHoursF_ge shifts ahFuel c2 dur ce hadd
            exact ⟨by omega, hns2, hrest⟩

/-! ### Helper lemmas on queues, timelines and logs -/

theorem mem_pushEvent (x : Event) :
    ∀ q y, y ∈ pushEvent x q ↔ y = x ∨ y ∈ q := by
  intro q
  induction q with
  | nil => intro y; simp [pushEvent]
  | cons e r ih =>
    intro y
    simp only [pushEvent]
    split
    · rw [List.mem_cons, ih y, List.mem_cons]
      tauto
    · rw [List.mem_cons]

theorem pairwise_pushEvent (R : Event → Event → Prop) (x : Event) :
    ∀ q, List.Pairwise R q → (∀ y ∈ q, R x y ∧ R y x) →
      List.Pairwise R (pushEvent x q) := by
  intro q
  induction q with
  | nil => intro _ _; simp only [pushEvent]; exact List.pairwise_singleton R x
  | cons e r ih =>
    intro hpw hall
    rcases List.pairwise_cons.1 hpw with ⟨he, hr⟩
    simp only [pushEvent]
    split
    · rw [List.pairwise_cons]
      refine ⟨?_, ih hr fun y hy => hall y (List.mem_cons_of_mem _ hy)⟩
      intro y hy
      rcases (mem_pushEvent x r y).1 hy with h | h
      · subst h; exact (hall e (List.mem_cons_self _ _)).2
      · exact he y h
    · rw [List.pairwise_cons]
      exact ⟨fun y hy => ((List.mem_cons).1 hy).elim
          (fun h => h ▸ (hall e (List.mem_cons_self _ _)).1)
          (fun h => (hall y (List.mem_cons_of_mem _ h)).1), hpw⟩

theorem all_insertBooking (f : Booking → Bool) (x : Booking) :
    ∀ l, (insertBooking x l).all f = (f x && l.all f) := by
  intro l
  induction l with
  | nil => simp [insertBooking]
  | cons b r ih =>
    simp only [insertBooking]
    split
    · rw [List.all_cons, ih, List.all_cons, Bool.and_left_comm]
    · rw [List.all_cons, List.all_cons]

theorem disjB_symm (a b : Booking) : disjB a b = disjB b a := Bool.or_comm _ _

theorem pairwiseDisjB_insert (x : Booking) :
    ∀ l, pairwiseDisjB l = true → (l.all fun b => disjB x b) = true →
      pairwiseDisjB (insertBooking x l) = true := by
  intro l
  induction l with
  | nil => intro _ _; simp [insertBooking, pairwiseDisjB]
  | cons b r ih =>
    intro hpw hall
    rw [List.all_cons, Bool.and_eq_true] at hall
    simp only [pairwiseDisjB, Bool.and_eq_true] at hpw
    simp only [insertBooking]
    split
    · simp only [pairwiseDisjB, Bool.and_eq_true]
      refine ⟨?_, ih hpw.2 hall.2⟩
      rw [all_insertBooking, Bool.and_eq_true]
      exact ⟨by rw [disjB_symm]; exact hall.1, hpw.1⟩
    · simp only [pairwiseDisjB, Bool.and_eq_true, List.all_cons]
      exact ⟨⟨hall.1, hall.2⟩, hpw.1, hpw.2⟩

theorem all_set_of_all {α} (f : α → Bool) (l : List α) (i : Nat) (y : α)
    (hl : l.all f = true) (hy : f y = true) : (l.set i y).all f = true := by
  rw [List.all_eq_true] at hl ⊢
  intro a ha
  rcases List.mem_or_eq_of_mem_set ha with h | h
  · exact hl a h
  · subst h; exact hy

theorem chainLE_append (x : LogEntry) :
    ∀ l, chainLE l = true → ((l.map fun en => en.stop).getLastD 0 ≤ x.start) →
      chainLE (l ++ [x]) = true := by
  intro l
  induction l with
  | nil => intro _ _; simp [chainLE]
  | cons a r ih =>
    intro hc hlast
    cases r with
    | nil =>
      simp only [List.map_cons, List.map_nil, List.getLastD_cons, List.getLastD_nil] at hlast
      show (decide (a.stop ≤ x.start) && chainLE [x]) = true
      rw [Bool.and_eq_true]
      exact ⟨decide_eq_true hlast, rfl⟩
    | cons b r2 =>
      simp only [chainLE, Bool.and_eq_true] at hc
      simp only [List.cons_append, chainLE, Bool.and_eq_true]
      refine ⟨hc.1, ?_⟩
      apply ih hc.2
      simp only [List.map_cons, List.getLastD_cons] at hlast ⊢
      exact hlast

theorem lastStop_append (log : List LogEntry) (x : LogEntry) (p : Nat) :
    lastStop (log ++ [x]) p = if x.projIdx == p then x.stop else lastStop log p := by
  unfold lastStop
  rw [List.filter_append]
  split
  · rename_i hx
    simp only [List.filter_cons, hx, if_true, List.filter_nil]
    rw [List.map_append, List.map_cons, List.map_nil, List.getLastD_concat]
  · rename_i hx
    have hxf : (fun en => en.projIdx == p) x = false := by
      simp only [Bool.not_eq_true] at hx
      exact hx
    simp only [List.filter_cons, hxf, Bool.false_eq_true, if_false, List.filter_nil,
      List.append_nil]

/-- The timelines produced by `Scheduler.__init__` are empty. -/
theorem buildMachines_sched_nil (l : List MachInput) :
    ∀ m ∈ buildMachines l, m.sched = [] := by
  have hins : ∀ (acc : List MachineE) (x : MachineE), (∀ m ∈ acc, m.sched = []) →
      x.sched = [] → ∀ m ∈ insertMachine acc x, m.sched = [] := by
    intro acc
    induction acc with
    | nil => intro x _ hx m hm; simp only [insertMachine, List.mem_singleton] at hm; subst hm; exact hx
    | cons m0 r ih =>
      intro x hacc hx m hm
      simp only [insertMachine] at hm
      split at hm
      · rcases List.mem_cons.1 hm with h | h
        · rw [h]; exact hx
        · exact hacc m (List.mem_cons_of_mem _ h)
      · rcases List.mem_cons.1 hm with h | h
        · rw [h]; exact hacc m0 (List.mem_cons_self _ _)
        · exact ih x (fun a ha => hacc a (List.mem_cons_of_mem _ ha)) hx m h
  unfold buildMachines
  have main : ∀ (inp : List MachInput) (acc : List MachineE), (∀ m ∈ acc, m.sched = []) →
      ∀ m ∈ inp.foldl (fun acc d => insertMachine acc ⟨d.name, d.shifts, []⟩) acc,
        m.sched = [] := by
    intro inp
    induction inp with
    | nil => intro acc hacc m hm; exact hacc m hm
    | cons d r ih =>
      intro acc hacc m hm
      exact ih _ (hins acc ⟨d.name, d.shifts, []⟩ hacc rfl) m hm
  exact main l [] (by intro m hm; cases hm)

/-! ### The event-loop invariant -/

/-- The inductive invariant carried through the event loop: timelines are
pairwise disjoint and Sunday-safe, the per-project placement logs are chained,
every pending event is no earlier than its project's last placed end, and
there is at most one pending event per project. -/
def InvP (st : SchedState) : Prop :=
  allDisjointB st = true ∧ sundaySafeB st = true ∧ logChainB st = true ∧
    (∀ ev ∈ st.queue, lastStop st.log ev.projIdx ≤ ev.time) ∧
    List.Pairwise (fun a b : Event => a.projIdx ≠ b.projIdx) st.queue

theorem invP_pop (st : SchedState) (ev : Event) (qrest : List Event)
    (hq : st.queue = ev :: qrest) (h : InvP st) : InvP { st with queue := qrest } := by
  obtain ⟨h1, h2, h3, h4, h5⟩ := h
  rw [hq] at h4 h5
  refine ⟨h1, h2, h3, ?_, (List.pairwise_cons.1 h5).2⟩
  intro e he
  exact h4 e (List.mem_cons_of_mem _ he)

/-- Invariant preservation by one booking: the state assembled at the end of
a placement iteration of `Scheduler.run` satisfies the invariant again. -/
theorem invP_book (st : SchedState) (ev : Event) (qrest : List Event) (proj : ProjectE)
    (opr : String × String × Nat) (mi : Nat) (mach : MachineE) (ah : Nat)
    (s tEnd : Nat)
    (hq : st.queue = ev :: qrest)
    (hmach : st.machines[mi]? = some mach)
    (hfind : findSlotF mach.shifts mach.sched opr.2.2 ah ah ev.time = some (.ok s))
    (hadd : addHoursF mach.shifts ah s opr.2.2 = some (.ok tEnd))
    (hInv : InvP st)
    (q2 : List Event) (ctr2 : Nat) (proj2 : ProjectE)
    (hq2 : q2 = qrest ∨
      q2 = pushEvent ⟨tEnd, st.counter + 1, ev.projIdx, proj.currentOp + 1⟩ qrest) :
    InvP { machines := st.machines.set mi
             { mach with sched := insertBooking ⟨s, tEnd, proj.productName, opr.1⟩ mach.sched }
           projects := st.projects.set ev.projIdx proj2
           queue := q2
           counter := ctr2
           log := st.log ++ [⟨ev.projIdx, ev.opIdx, s, tEnd⟩] } := by
  obtain ⟨hd, hss, hch, hlink, hnd⟩ := hInv
  rw [hq] at hnd
  have hmachmem : mach ∈ st.machines := List.getElem?_mem hmach
  obtain ⟨hts, hsns, e0, hadd0, havail⟩ :=
    findSlotF_spec mach.shifts mach.sched opr.2.2 ah ah ev.time s hfind
  rw [hadd] at hadd0
  simp only [Option.some.injEq, Except.ok.injEq] at hadd0
  subst hadd0
  have hbound : s ≤ tEnd := addHoursF_ge mach.shifts ah s opr.2.2 tEnd hadd
  have hsafeEnd : isSunday tEnd = true → tEnd % 1440 ≤ 90 := by
    refine addHoursF_sunday_safe mach.shifts ah s opr.2.2 tEnd ?_ hadd
    intro hbad; rw [hsns] at hbad; cases hbad
  have hev : ev ∈ st.queue := by rw [hq]; exact List.mem_cons_self _ _
  have hlink_ev : lastStop st.log ev.projIdx ≤ ev.time := hlink ev hev
  have hothers : ∀ y ∈ qrest, ev.projIdx ≠ y.projIdx := (List.pairwise_cons.1 hnd).1
  have hndrest : List.Pairwise (fun a b : Event => a.projIdx ≠ b.projIdx) qrest :=
    (List.pairwise_cons.1 hnd).2
  refine ⟨?_, ?_, ?_, ?_, ?_⟩
  · -- pairwise-disjoint timelines
    show (st.machines.set mi _).all (fun m => pairwiseDisjB m.sched) = true
    refine all_set_of_all _ _ _ _ hd ?_
    show pairwiseDisjB
        (insertBooking ⟨s, tEnd, proj.productName, opr.1⟩ mach.sched) = true
    refine pairwiseDisjB_insert _ _ ?_ ?_
    · exact List.all_eq_true.1 hd mach hmachmem
    · exact havail
  · -- Sunday safety
    show (st.machines.set mi _).all
        (fun m => m.sched.all fun b =>
          !(isSunday b.start) && (!(isSunday b.stop) || b.stop % 1440 ≤ 90)) = true
    refine all_set_of_all _ _ _ _ hss ?_
    show (insertBooking ⟨s, tEnd, proj.productName, opr.1⟩ mach.sched).all _ = true
    rw [all_insertBooking, Bool.and_eq_true]
    constructor
    · show (!(isSunday s) && (!(isSunday tEnd) || decide (tEnd % 1440 ≤ 90))) = true
      rw [hsns]
      cases hsun : isSunday tEnd
      · rfl
      · have := hsafeEnd hsun
        simp [this]
    · exact List.all_eq_true.1 hss mach hmachmem
  · -- per-project chains
    unfold logChainB logFor
    simp only [List.length_set]
    rw [List.all_eq_true]
    intro p hp
    rw [List.filter_append]
    by_cases hpe : (ev.projIdx == p) = true
    · have hone : List.filter (fun en => en.projIdx == p)
          [({ projIdx := ev.projIdx, opIdx := ev.opIdx, start := s, stop := tEnd } : LogEntry)] =
          [{ projIdx := ev.projIdx, opIdx := ev.opIdx, start := s, stop := tEnd }] := by
        simp [hpe]
      rw [hone]
      refine chainLE_append _ _ ?_ ?_
      · exact List.all_eq_true.1 hch p hp
      · show ((st.log.filter fun en => en.projIdx == p).map fun en => en.stop).getLastD 0 ≤ s
        have hpeq : ev.projIdx = p := by simpa using hpe
        have hls : lastStop st.log p ≤ ev.time := by rw [← hpeq]; exact hlink_ev
        unfold lastStop at hls
        omega
    · have hpef : (ev.projIdx == p) = false := by
        simp only [Bool.not_eq_true] at hpe; exact hpe
      have hnone : List.filter (fun en => en.projIdx == p)
          [({ projIdx := ev.projIdx, opIdx := ev.opIdx, start := s, stop := tEnd } : LogEntry)] =
          [] := by
        simp [hpef]
      rw [hnone, List.append_nil]
      exact List.all_eq_true.1 hch p hp
  · -- queue link
    intro e2 he2
    show lastStop (st.log ++
        [({ projIdx := ev.projIdx, opIdx := ev.opIdx, start := s, stop := tEnd } : LogEntry)])
        e2.projIdx ≤ e2.time
    rcases hq2 with h | h
    · subst h
      rw [lastStop_append]
      have hne : (({ projIdx := ev.projIdx, opIdx := ev.opIdx, start := s, stop := tEnd }
          : LogEntry).projIdx == e2.projIdx) = false := by
        simp only [beq_eq_false_iff_ne, ne_eq]
        exact hothers e2 he2
      rw [hne]
      simp only [Bool.false_eq_true, if_false]
      exact hlink e2 (by rw [hq]; exact List.mem_cons_of_mem _ he2)
    · subst h
      rcases (mem_pushEvent _ _ _).1 he2 with h | h
      · subst h
        rw [lastStop_append]
        simp
      · rw [lastStop_append]
        have hne : (({ projIdx := ev.projIdx, opIdx := ev.opIdx, start := s, stop := tEnd }
            : LogEntry).projIdx == e2.projIdx) = false := by
          simp only [beq_eq_false_iff_ne, ne_eq]
          exact hothers e2 h
        rw [hne]
        simp only [Bool.false_eq_true, if_false]
        exact hlink e2 (by rw [hq]; exact List.mem_cons_of_mem _ h)
  · -- at most one event per project
    rcases hq2 with h | h
    · subst h; exact hndrest
    · subst h
      refine pairwise_pushEvent _ _ _ hndrest ?_
      intro y hy
      have := hothers y hy
      exact ⟨this, fun hb => this hb.symm⟩

theorem runStep_cont_inv (ah : Nat) (st st1 : SchedState) (hInv : InvP st)
    (hs : runStep ah st = .cont st1) : InvP st1 := by
  rcases hque : st.queue with _ | ⟨ev, qrest⟩
  · simp only [runStep, hque] at hs
    exact StepRes.noConfusion hs
  · simp only [runStep, hque] at hs
    split at hs
    · injection hs with h; subst h
      exact invP_pop st ev qrest hque hInv
    · rename_i proj hproj
      split at hs
      · injection hs with h; subst h
        exact invP_pop st ev qrest hque hInv
      · rename_i hlen
        split at hs
        · injection hs with h; subst h
          exact invP_pop st ev qrest hque hInv
        · rename_i opr hop
          split at hs
          · exact StepRes.noConfusion hs
          · rename_i mi hmi
            split at hs
            · exact StepRes.noConfusion hs
            · rename_i mach hmach
              split at hs
              · exact StepRes.noConfusion hs
              · exact StepRes.noConfusion hs
              · rename_i s hfind
                split at hs
                · exact StepRes.noConfusion hs
                · exact StepRes.noConfusion hs
                · rename_i tEnd hadd
                  injection hs with h
                  subst h
                  refine invP_book st ev qrest proj opr mi mach ah s tEnd hque hmach
                    hfind hadd hInv _ _ _ ?_
                  by_cases hdone : proj.operations.length ≤ proj.currentOp + 1
                  · left; rw [if_pos hdone]
                  · right; rw [if_neg hdone]

theorem runStep_halt_inv (ah : Nat) (st st1 : SchedState) (e : String) (hInv : InvP st)
    (hs : runStep ah st = .halt st1 e) : InvP st1 := by
  rcases hque : st.queue with _ | ⟨ev, qrest⟩
  · simp only [runStep, hque] at hs
    exact StepRes.noConfusion hs
  · simp only [runStep, hque] at hs
    split at hs
    · exact StepRes.noConfusion hs
    · split at hs
      · exact StepRes.noConfusion hs
      · split at hs
        · exact StepRes.noConfusion hs
        · split at hs
          · injection hs with h h2; subst h
            exact invP_pop st ev qrest hque hInv
          · split at hs
            · injection hs with h h2; subst h
              exact invP_pop st ev qrest hque hInv
            · split at hs
              · exact StepRes.noConfusion hs
              · injection hs with h h2; subst h
                exact invP_pop st ev qrest hque hInv
              · split at hs
                · exact StepRes.noConfusion hs
                · injection hs with h h2; subst h
                  exact invP_pop st ev qrest hque hInv
                · exact StepRes.noConfusion hs

theorem runLoop_inv (ah : Nat) :
    ∀ fuel st st2 err, InvP st → runLoop ah fuel st = some (st2, err) → InvP st2 := by
  intro fuel
  induction fuel with
  | zero => intro st st2 err _ h; simp [runLoop] at h
  | succ f ih =>
    intro st st2 err hInv h
    simp only [runLoop] at h
    split at h
    · simp only [Option.some.injEq, Prod.mk.injEq] at h
      rw [← h.1]; exact hInv
    · rename_i st1 e hstep
      simp only [Option.some.injEq, Prod.mk.injEq] at h
      rw [← h.1]
      exact runStep_halt_inv ah st st1 e hInv hstep
    · exact Option.noConfusion h
    · rename_i st1 hstep
      exact ih st1 st2 err (runStep_cont_inv ah st st1 hInv hstep) h

theorem seedEvents_nodup : ∀ (ps : List ProjectE) (ctr i : Nat) (q : List Event),
    (∀ ev ∈ q, ev.projIdx < i) →
    List.Pairwise (fun a b : Event => a.projIdx ≠ b.projIdx) q →
    List.Pairwise (fun a b : Event => a.projIdx ≠ b.projIdx) (seedEvents ctr i ps q).2 := by
  intro ps
  induction ps with
  | nil => intro ctr i q _ hnd; exact hnd
  | cons p r ih =>
    intro ctr i q hq hnd
    simp only [seedEvents]
    refine ih _ _ _ ?_ ?_
    · intro e he
      rcases (mem_pushEvent _ _ _).1 he with h | h
      · rw [h]; exact Nat.lt_succ_self i
      · exact Nat.lt_succ_of_lt (hq e h)
    · refine pairwise_pushEvent _ _ _ hnd ?_
      intro y hy
      have := hq y hy
      constructor
      · show Event.projIdx ⟨p.startTime, ctr + 1, i, p.currentOp⟩ ≠ y.projIdx
        show i ≠ y.projIdx
        omega
      · show y.projIdx ≠ i
        omega

theorem invP_init (ms : List MachInput) (ps : List ProjInput) : InvP (initState ms ps) := by
  refine ⟨?_, ?_, ?_, ?_, ?_⟩
  · show (buildMachines ms).all (fun m => pairwiseDisjB m.sched) = true
    rw [List.all_eq_true]
    intro m hm
    show pairwiseDisjB m.sched = true
    rw [buildMachines_sched_nil ms m hm]
    rfl
  · show (buildMachines ms).all _ = true
    rw [List.all_eq_true]
    intro m hm
    show (m.sched.all fun b =>
      !(isSunday b.start) && (!(isSunday b.stop) || b.stop % 1440 ≤ 90)) = true
    rw [buildMachines_sched_nil ms m hm]
    rfl
  · show (List.range (sortProjects (ps.map mkProject)).length).all
      (fun p => chainLE (([] : List LogEntry).filter fun en => en.projIdx == p)) = true
    rw [List.all_eq_true]
    intro p hp
    rfl
  · intro e he
    exact Nat.zero_le _
  · exact seedEvents_nodup (sortProjects (ps.map mkProject)) 0 0 []
      (by intro e he; cases he) List.Pairwise.nil

/-! ### Claim theorems -/

set_option maxRecDepth 4000

/-- C1: for every run of the Scheduler — any machine and project inputs, any
fuel, whether the run completed or aborted — all pairs of distinct bookings on
every machine's timeline are disjoint: one booking's end is at most the
other's start. -/
theorem c1_no_overlap (ahFuel loopFuel : Nat) (ms : List MachInput) (ps : List ProjInput)
    (st : SchedState) (err : Option String)
    (h : runF ahFuel loopFuel ms ps = some (st, err)) : allDisjointB st = true :=
  (runLoop_inv ahFuel loopFuel (initState ms ps) st err (invP_init ms ps) h).1

def msW1 : List MachInput := [⟨"M1", [1, 2]⟩]

def psW1 : List ProjInput := [⟨"P1", 1, 7, 8, ["Cut", "Grind"], ["M1", "M1"], [120, 180]⟩]

def stW1 : SchedState := ((runF 16 16 msW1 psW1).getD (emptyState, none)).1

theorem c1_no_overlap_witness : allDisjointB stW1 = true :=
  c1_no_overlap 16 16 msW1 psW1 stW1 none (by decide)

def msC2 : List MachInput := [⟨"M", [1, 2]⟩]

def psC2 : List ProjInput := [⟨"P", 1, 5, 8, ["Cut"], ["M"], [1020]⟩]

def stC2 : SchedState := ((runF 12 12 msC2 psC2).getD (emptyState, none)).1

/-- C2 counterexample: a 17-hour operation placed Saturday 08:00 on a machine
with shifts 1 and 2 is booked as [Saturday 08:00, Sunday 01:00) — its end
timestamp falls on the excluded Sunday, refuting "no booked interval has a
start timestamp or an end timestamp on Sunday". -/
theorem c2_counterexample :
    runF 12 12 msC2 psC2 = some (stC2, none) ∧
      stC2.machines.any (fun m => m.sched.any fun b => isSunday b.stop) = true := by
  decide

/-- C2 (amended): after any run, no booked start lies on the excluded Sunday,
and a booked end lies on Sunday only within its first 90 minutes — the
spill-over of Saturday's overnight shift 2, which ends 01:30 on Sunday. -/
theorem c2_amended (ahFuel loopFuel : Nat) (ms : List MachInput) (ps : List ProjInput)
    (st : SchedState) (err : Option String)
    (h : runF ahFuel loopFuel ms ps = some (st, err)) : sundaySafeB st = true :=
  (runLoop_inv ahFuel loopFuel (initState ms ps) st err (invP_init ms ps) h).2.1

theorem c2_amended_witness : sundaySafeB stC2 = true :=
  c2_amended 12 12 msC2 psC2 stC2 none (by decide)

/-- C3 counterexample: from Saturday 17:00 (minute 8220 of the embedding, a
Saturday) with only the overnight shift 2 allowed, `get_next_shift_start`
returns Sunday 16:30 (minute 9630) — a timestamp on the excluded day,
refuting "the returned timestamp never falls on Sunday". -/
theorem c3_counterexample :
    getNextShiftStart [2] 8220 = .ok 9630 ∧ isSunday 9630 = true := ⟨rfl, rfl⟩

/-- C3 (amended): whenever `get_next_shift_start` returns a timestamp, it is
strictly greater than the input and is the start instant of an allowed shift
(first in the scan order over days and start-sorted shifts); it can fall on
Sunday, and does so only when the input is a Saturday whose wall-clock time is
past 16:30 and the overnight shift 2 is allowed. -/
theorem c3_amended (shifts : List Nat) (dt r : Nat)
    (h : getNextShiftStart shifts dt = .ok r) :
    dt < r ∧
      (∃ sh, getShiftForTime (r % 1440) = some sh ∧ shifts.contains sh = true) ∧
      (isSunday r = true → 990 < dt % 1440 ∧ shifts.contains 2 = true ∧ dt / 1440 % 7 = 5) :=
  ⟨gnss_gt shifts dt r h, gnss_covering shifts dt r h, gnss_sunday shifts dt r h⟩

theorem c3_amended_witness :
    8220 < 9630 ∧
      (∃ sh, getShiftForTime (9630 % 1440) = some sh ∧ [2].contains sh = true) ∧
      (isSunday 9630 = true →
        990 < 8220 % 1440 ∧ [2].contains 2 = true ∧ 8220 / 1440 % 7 = 5) :=
  c3_amended [2] 8220 9630 rfl

def msC4 : List MachInput := [⟨"M4", [2]⟩]

def psC4 : List ProjInput := [⟨"P4", 1, 7, 0, ["OpX"], ["M4"], [120]⟩]

def stC4 : SchedState := ((runF 12 12 msC4 psC4).getD (emptyState, none)).1

/-- C4 (code bug): a completed run books [Monday 00:00, Monday 02:00) on a
machine whose only operational shift is 2 (16:30-01:30): the overnight
shift-end computation adds a day to the *current* date even when the instant
sits in the post-midnight tail of the shift, producing a 25.5-hour window, so
the minutes 01:30-02:00 of the booking are covered by no operational shift of
the machine — shift containment fails. -/
theorem c4_shift_containment_bug :
    runF 12 12 msC4 psC4 = some (stC4, none) ∧
      stC4.machines.all
          (fun m => m.sched.all fun b => intervalCoveredB m.shifts b.start b.stop) =
        false := by
  decide

/-- C5: after any run, for every project, consecutive placements never
overlap backwards: each operation's booked start is at least the booked end of
the project's previous operation (queue time is never negative). -/
theorem c5_sequence_fidelity (ahFuel loopFuel : Nat) (ms : List MachInput)
    (ps : List ProjInput) (st : SchedState) (err : Option String)
    (h : runF ahFuel loopFuel ms ps = some (st, err)) : logChainB st = true :=
  (runLoop_inv ahFuel loopFuel (initState ms ps) st err (invP_init ms ps) h).2.2.1

theorem c5_sequence_fidelity_witness : logChainB stW1 = true :=
  c5_sequence_fidelity 16 16 msW1 psW1 stW1 none (by decide)

/-- C6: `add_hours_across_shifts` terminates for every start timestamp, every
(non-negative) duration and every shift set: some fuel makes the fuel-indexed
loop deliver a value — either the advanced timestamp or the no-shift-found
error — because every iteration either finishes, strictly reduces the
remaining duration, or reaches a consuming instant within two jumps. -/
theorem c6_advance_terminates (shifts : List Nat) (start left : Nat) :
    ∃ fuel, (addHoursF shifts fuel start left).isSome = true :=
  addHours_terminates shifts left start

def msC7 : List MachInput := [⟨"A", [1, 2]⟩]

def psC7 : List ProjInput := [⟨"P7", 1, 7, 0, ["OpY"], ["A"], [120]⟩]

def stC7 : SchedState := ((runF 12 12 msC7 psC7).getD (emptyState, none)).1

def machC7 : MachineE := stC7.machines.getD 0 ⟨"", [], []⟩

/-- C7 (code bug): idle + busy closure fails on a completed run.  One 2-hour
booking [Monday 00:00, Monday 02:00) on machine A (shifts 1 and 2) gives a
scan window [Saturday 08:00, Tuesday 01:30) = minutes [7680, 11610).  The
operational-shift minutes inside the window total 2100 (35 h), the booked
minutes inside the window are 120 (2 h), but the accountant reports 3150 idle
minutes (52.5 h): the day-walk counts whole-day shift spans both before the
window (Saturday) and beyond its end (Tuesday), and the booking is counted in
no span.  The discrepancy (19.5 h) far exceeds the two-decimal rounding of
the reported hours figure. -/
theorem c7_idle_closure_bug :
    runF 12 12 msC7 psC7 = some (stC7, none) ∧
      firstShiftStartM machC7 = some 7680 ∧
      lastShiftEndM machC7 = some 11610 ∧
      calcIdleMachine 20 machC7 = some 3150 ∧
      bookedMinutesInWindow machC7.sched 7680 11610 = 120 ∧
      specShiftMinutesInWindow machC7.shifts 7680 11610 = 2100 ∧
      2100 + 60 < 120 + 3150 := by
  decide

def msC8a : List MachInput := [⟨"A", []⟩]

def psC8a : List ProjInput := [⟨"P", 1, 7, 8, ["Op1"], ["A"], [60]⟩]

def msC8b : List MachInput := [⟨"B", []⟩]

def psC8b : List ProjInput := [⟨"P", 1, 7, 8, ["Op1"], ["B"], [60]⟩]

/-- C8 counterexample: two runs whose offending machines have different names
("A" and "B", both with an empty shift set) abort with the byte-identical
fixed message, so the configuration error does not identify the offending
Resource. -/
theorem c8_counterexample :
    (runF 12 12 msC8a psC8a).map (fun p => p.2) =
        some (some "No valid shift found in the next 7 days") ∧
      (runF 12 12 msC8b psC8b).map (fun p => p.2) =
        some (some "No valid shift found in the next 7 days") := by
  decide

/-- Helper for C8: with an operational set containing none of the table's
shifts, the snap-to-shift loop surfaces the fixed no-shift error on its first
iteration, from any instant. -/
theorem snapToShift_error (shifts : List Nat)
    (h1 : shifts.contains 1 = false) (h2 : shifts.contains 2 = false)
    (h3 : shifts.contains 3 = false) (af cand : Nat) :
    snapToShift shifts (af + 1) cand =
      some (.error "No valid shift found in the next 7 days") := by
  have hgnss := gnss_error shifts cand h1 h2 h3
  have hok : (match getShiftForTime (cand % 1440) with
      | some sh => shifts.contains sh
      | none => false) = false := by
    rcases gsft_cases (cand % 1440) (tod_lt cand) with hc | hc | hc <;> rw [hc]
    · exact h1
    · exact h2
    · exact h3
  simp only [snapToShift, hok, Bool.false_and, Bool.false_eq_true, if_false, hgnss]

/-- C8 (amended): when a Resource's operational-shift set contains none of the
table's shifts, the very first slot search on it surfaces the fixed
`No valid shift found in the next 7 days` error (the `ValueError` that aborts
the run), whatever the ready time, duration or timeline; the message is a
string constant, so it does not identify the offending Resource. -/
theorem c8_amended (shifts : List Nat) (sched : List Booking) (dur af lf dt : Nat)
    (h1 : shifts.contains 1 = false) (h2 : shifts.contains 2 = false)
    (h3 : shifts.contains 3 = false) :
    getNextShiftStart shifts dt = .error "No valid shift found in the next 7 days" ∧
      findSlotF shifts sched dur (af + 1) (lf + 2) dt =
        some (.error "No valid shift found in the next 7 days") := by
  refine ⟨gnss_error shifts dt h1 h2 h3, ?_⟩
  have hsnap := snapToShift_error shifts h1 h2 h3 af
  by_cases hs : isSunday dt = true
  · have hs2 := nwm_not_sunday dt
    simp only [findSlotF, hs, if_true, hs2, Bool.false_eq_true, if_false, hsnap]
  · have hsf : isSunday dt = false := by simp only [Bool.not_eq_true] at hs; exact hs
    simp only [findSlotF, hsf, Bool.false_eq_true, if_false, hsnap]

theorem c8_amended_witness :
    getNextShiftStart [] 10560 = .error "No valid shift found in the next 7 days" ∧
      findSlotF [] [] 60 12 12 10560 =
        some (.error "No valid shift found in the next 7 days") :=
  c8_amended [] [] 60 11 10 10560 rfl rfl rfl

def msC9 : List MachInput := [⟨"M1", [1]⟩]

def psC9 : List ProjInput := [⟨"P9", 1, 7, 8, ["OpA", "OpB"], ["M1", "MX"], [60, 60]⟩]

def stC9 : SchedState := ((runF 6 6 msC9 psC9).getD (emptyState, none)).1

/-- C9 counterexample: a project whose second operation references the unknown
resource "MX" sails through construction; the dangling name is only detected
when that operation's event is popped during the event loop — by which time
the first operation has already been booked — refuting "the error is surfaced
before the simulation starts (no operation of any project is booked)". -/
theorem c9_counterexample :
    runF 6 6 msC9 psC9 = some (stC9, some "KeyError: MX") ∧
      countBookings stC9 = 1 := by
  decide

/-- C9 (amended): construction performs no validation.  Mismatched parallel
operation/resource/duration lists raise nothing: `zip` silently truncates the
operation list to the shortest input list.  An unknown resource name surfaces
as a `KeyError` only during the event loop, when the referencing operation is
popped, after earlier operations have already been booked. -/
theorem c9_amended :
    (∀ d : ProjInput, (mkProject d).operations.length =
        min d.opNames.length (min d.machineSeq.length d.opMinutes.length)) ∧
      runF 6 6 msC9 psC9 = some (stC9, some "KeyError: MX") ∧
        1 ≤ countBookings stC9 := by
  refine ⟨?_, by decide, by decide⟩
  intro d
  simp [mkProject, zip3]

/-- C10: the covering-shift lookup is total: the three shifts of the fixed
table jointly cover all 1440 minutes of the wall-clock day, so
`get_shift_for_time` returns a shift for the time of any instant and the
`None` branch is unreachable. -/
theorem c10_shift_covering_total (dt : Nat) :
    (getShiftForTime (dt % 1440)).isSome = true :=
  gsft_total (dt % 1440) (tod_lt dt)

end MachineSched
